import Mathlib

/-!
Verification development for the `reactivity` crate (src/reactive.rs, src/scope.rs):
a fine-grained reactive engine with reactive cells, effects, and a scope that
tracks dependencies via an effect stack and a cell-id → effect-set map.

The development has four parts:

1. A polymorphic model of `ReactiveInner<T>` / `Reactive<T>::update`
   (src/reactive.rs).  Observer callbacks are represented by abstract tokens of
   a type `O`; invoking an observer is modelled by emitting the token together
   with the arguments it is called with, so "which observers run, with which
   arguments, in which order" is the list the operation returns.
2. A model of cell identity (`Reactive::new`, the derived `Default`, and the
   `PartialEq`/`Hash` impls which compare the `u64` value behind the `Arc`).
3. An executable small-step model of the scope engine (src/scope.rs): effect
   bodies are syntax trees (`Prog`), the engine state carries the cells, the
   dependency map, the effect stack and the effect registry, and a fueled
   interpreter `interp` mirrors `Scope::effect`, the read/write listeners
   installed by `Scope::reactive`, and `Reactive::update`.  The interpreter
   emits a trace of events (reads with the stack top at the time, effect
   invocations, and per-update notification passes).
4. A lock-event model of the two `Scope` lock domains (the `functions` stack
   lock and the `map` lock), recording, per the source's temporary-lifetime
   semantics, where each guard is acquired and dropped relative to callback
   invocations.
-/

/-! ## Part 1: ReactiveInner<T> (src/reactive.rs)

`ReactiveInner` holds the value and the two observer vectors.  `O` is the type
of observer tokens (in Rust, boxed closures); the vectors are in registration
order because `Reactive::add_observer` pushes at the end. -/

structure RInner (T : Type) (O : Type) where
  value : T
  getterObservers : List O
  setterObservers : List O

/-- `ReactiveInner::update` (src/reactive.rs lines 120-128): compute
`new_value = f(&self.value)`; if it differs from the current value, replace the
stored value and return `Some(old_value)`, otherwise return `None`.
Modelled as returning the new inner state together with the option. -/
def RInner.update {T O : Type} [DecidableEq T] (inner : RInner T O) (f : T → T) :
    RInner T O × Option T :=
  if f inner.value ≠ inner.value then
    ({ inner with value := f inner.value }, some inner.value)
  else
    (inner, none)

/-- `ReactiveInner::traverse_setter_observers` (lines 104-109): call every
setter observer, in vector (= registration) order, with
`(&self.value, &old_value)`, i.e. (new value, old value).  The result is the
list of invocations: one entry `(observer, new, old)` per call, in call order. -/
def RInner.traverseSetterObservers {T O : Type} (inner : RInner T O) (oldValue : T) :
    List (O × T × T) :=
  inner.setterObservers.map (fun obs => (obs, inner.value, oldValue))

/-- `ReactiveInner::value` via `Reactive::value` (lines 55-57, 112-117):
invoke every getter observer with the current value, then return a clone of the
value.  Result: the returned value and the list of getter invocations. -/
def RInner.valueOp {T O : Type} (inner : RInner T O) : T × List (O × T) :=
  (inner.value, inner.getterObservers.map (fun obs => (obs, inner.value)))

/-- `Reactive::update` (src/reactive.rs lines 61-70): run the inner update
under the write lock; if it returned `Some(old_value)`, reacquire a read lock
and traverse the setter observers with that old value.  Result: the new inner
state and the list of setter-observer invocations performed by this call. -/
def reactiveUpdate {T O : Type} [DecidableEq T] (inner : RInner T O) (f : T → T) :
    RInner T O × List (O × T × T) :=
  match RInner.update inner f with
  | (inner1, some oldValue) => (inner1, RInner.traverseSetterObservers inner1 oldValue)
  | (inner1, none) => (inner1, [])

/-! ## Part 2: cell identity (src/reactive.rs)

`Reactive<T>` holds `id: Arc<u64>`.  `Reactive::new` allocates the id from the
global counter `ID` (`AtomicU64::new(0)`, `fetch_add(1)` returns the previous
value, so the first `new` in the process gets 0).  The derived `Default` fills
the `id` field with `Arc::<u64>::default()`, which wraps `0`.  `PartialEq` and
`Hash` compare/hash `self.id`, and for `Arc<u64>` both deref to the `u64`
value, so identity is the numeric id value, not the allocation. -/

structure ReactiveHandle where
  id : Nat

/-- `PartialEq for Reactive<T>`: `self.id == other.id`, comparing the `u64`
values behind the two `Arc`s. -/
def ReactiveHandle.idEq (a b : ReactiveHandle) : Bool :=
  a.id == b.id

/-- `Hash for Reactive<T>` hashes `self.id`, i.e. the `u64` value behind the
`Arc`; two handles hash identically iff this key is equal. -/
def ReactiveHandle.hashKey (a : ReactiveHandle) : Nat :=
  a.id

/-- The handle produced by the derived `Default` impl: `Arc::<u64>::default()`
wraps `u64::default() = 0`. -/
def defaultHandle : ReactiveHandle :=
  { id := 0 }

/-- `Reactive::new` allocates `id = ID.fetch_add(1)`: given the current counter
value it returns the new handle and the bumped counter. -/
def newHandle (counter : Nat) : ReactiveHandle × Nat :=
  ({ id := counter }, counter + 1)

/-- The global counter `ID` starts at 0 (`AtomicU64::new(0)`). -/
def initialIdCounter : Nat := 0

/-! ## Part 3: the scope engine (src/scope.rs)

One scope; cell values are `Nat` (any `Clone + PartialEq` data).  Effect bodies
are syntax trees over the operations a closure can perform on the engine:
read a cell (`Reactive::value`), update a cell (`Reactive::update`), create a
cell (`Scope::reactive`), register a nested effect (`Scope::effect`), sequence,
and nothing.  `callList` is the internal continuation a write-listener uses to
invoke the subscribed effects one after the other; user closures never contain
it, it exists so that the interpreter is structurally recursive on fuel. -/

inductive Prog where
  | skip : Prog
  | seq : Prog → Prog → Prog
  | reactiveNew : Nat → Prog
  | readCell : Nat → Prog
  | update : Nat → (Nat → Nat) → Prog
  | effect : Prog → Prog
  | callList : List Nat → Prog

/-- Trace events: `read top c` is a read of cell `c` with `top` the effect on
top of the stack at that moment (the effect the read-listener would credit);
`invoke e` is an invocation of effect `e`'s closure (`Effect::call`);
`notify c es` is a changed update's notification pass over cell `c`, with `es`
the effect set it looks up and will invoke directly. -/
inductive Event where
  | read : Option Nat → Nat → Event
  | invoke : Nat → Event
  | notify : Nat → List Nat → Event
deriving DecidableEq, Repr

/-- Engine state: `cells` maps cell id to value (`Reactive` storage), `deps` is
the scope's `map: WeakKeyHashMap<WeakReactiveId, HashSet<Effect>>` (an
association list of cell id → effect-id set, each set a duplicate-free list),
`stack` is `functions: Vec<Effect>` (top = last), `bodies` maps effect id to
its closure (in Rust the closure lives inside each `Effect` clone; ids are
unique so a central registry is equivalent), and the two allocation counters
model the `ID`/`EFFECT_ID` atomics. -/
structure EngineState where
  cells : List (Nat × Nat)
  deps : List (Nat × List Nat)
  stack : List Nat
  bodies : List (Nat × Prog)
  nextCellId : Nat
  nextEffectId : Nat

def initState : EngineState :=
  { cells := [], deps := [], stack := [], bodies := [], nextCellId := 0, nextEffectId := 0 }

/-- First-match association-list lookup (model of `HashMap::get`; keys are
unique in every reachable state, so first-match agrees with the hash map). -/
def depsGet : List (Nat × List Nat) → Nat → Option (List Nat)
  | [], _ => none
  | p :: rest, c => if p.1 = c then some p.2 else depsGet rest c

/-- Model of `HashMap::contains_key`. -/
def mapContains (m : List (Nat × List Nat)) (c : Nat) : Bool :=
  (depsGet m c).isSome

/-- Model of `HashMap::insert`: replace the (first) entry for the key, or
append a new entry. -/
def mapSet : List (Nat × List Nat) → Nat → List Nat → List (Nat × List Nat)
  | [], c, v => [(c, v)]
  | p :: rest, c, v => if p.1 = c then (c, v) :: rest else p :: mapSet rest c v

/-- Model of `map.get_mut(&id).unwrap()` followed by a mutation of the entry:
apply `f` to the (first) entry for the key, leave everything else alone. -/
def mapAdjust : List (Nat × List Nat) → Nat → (List Nat → List Nat) → List (Nat × List Nat)
  | [], _, _ => []
  | p :: rest, c, f => if p.1 = c then (p.1, f p.2) :: rest else p :: mapAdjust rest c f

/-- Model of `HashSet::insert`: add the element if it is not already present. -/
def hsInsert (set : List Nat) (e : Nat) : List Nat :=
  if e ∈ set then set else set ++ [e]

/-- The effect set recorded for cell `c` (empty if the map has no entry). -/
def depsOf (s : EngineState) (c : Nat) : List Nat :=
  (depsGet s.deps c).getD []

def cellsGet : List (Nat × Nat) → Nat → Option Nat
  | [], _ => none
  | p :: rest, c => if p.1 = c then some p.2 else cellsGet rest c

def cellsSet : List (Nat × Nat) → Nat → Nat → List (Nat × Nat)
  | [], c, v => [(c, v)]
  | p :: rest, c, v => if p.1 = c then (c, v) :: rest else p :: cellsSet rest c v

/-- The stored value of cell `c` (0 if no such cell exists; all reachable
programs only touch cells they created). -/
def cellValue (s : EngineState) (c : Nat) : Nat :=
  (cellsGet s.cells c).getD 0

def setCell (c v : Nat) (s : EngineState) : EngineState :=
  { s with cells := cellsSet s.cells c v }

def allocCell (v : Nat) (s : EngineState) : EngineState :=
  { s with cells := s.cells ++ [(s.nextCellId, v)], nextCellId := s.nextCellId + 1 }

def bodyOf (s : EngineState) : Nat → Prog
  | e => ((s.bodies.find? (fun p => p.1 == e)).map Prod.snd).getD Prog.skip

/-- `Scope::effect` prologue (src/scope.rs lines 146-149): `Effect::new` takes
the next effect id, the closure is stored, and the effect is pushed onto
`functions`. -/
def pushEffect (body : Prog) (s : EngineState) : EngineState :=
  { s with
    bodies := s.bodies ++ [(s.nextEffectId, body)]
    stack := s.stack ++ [s.nextEffectId]
    nextEffectId := s.nextEffectId + 1 }

/-- `Scope::effect` epilogue (line 150): `functions.pop()` removes the last
element of the stack, whatever it is. -/
def popTop (s : EngineState) : EngineState :=
  { s with stack := s.stack.dropLast }

/-- The read-listener `Scope::create_get_listen` installs (src/scope.rs lines
110-123): if `functions.last()` is `Some(effect)` then (a) if the map has no
entry for this cell's id, insert an empty set, and (b) insert the top-of-stack
effect into the entry for this cell's id; if the stack is empty, do nothing. -/
def getListen (c : Nat) (s : EngineState) : EngineState :=
  match s.stack.getLast? with
  | none => s
  | some eff =>
    let m0 := s.deps
    let m1 := if mapContains m0 c then m0 else mapSet m0 c []
    { s with deps := mapAdjust m1 c (fun set => hsInsert set eff) }

/-- Modelled from the spec: the read-listener as §4.3 of the spec describes it
("if the effect stack is non-empty, take the top-of-stack effect; if the
dependency map has no entry for this cell's identity, create an empty set;
insert the top-of-stack effect into that set; if the stack is empty this is a
no-op").  Written from the spec's words, to be compared with `getListen`. -/
def readListenerSpec (c : Nat) (s : EngineState) : EngineState :=
  match s.stack.getLast? with
  | none => s
  | some eff =>
    let entry := (depsGet s.deps c).getD []
    { s with deps := mapSet s.deps c (hsInsert entry eff) }

/-- The fueled interpreter.  Each case mirrors one source operation:

* `readCell c` is `Reactive::value`: the installed read-listener runs
  (`getListen`), and the trace records the read together with the stack top.
* `update c f` is `Reactive::update`: compute `f(current)`; if equal, stop
  with no event (`ReactiveInner::update` returned `None`); otherwise store the
  new value and run the installed write-listener `Scope::create_set_listen`
  (lines 125-134): look up the dependency map at this cell's id and invoke
  every effect in the set, directly, via the `callList` continuation.
* `effect body` is `Scope::effect` (lines 146-151): allocate the effect, push
  it, run the closure once synchronously, pop the last stack element.
* `callList es` invokes the closures of the listed effects in order, directly,
  without touching the stack (the write-listener calls `effect.call()` only).

Fuel decreases on every recursive call, so the definition is structural and
computable; `none` means the fuel ran out (the source can recurse unboundedly
on cyclic dependency graphs, §5 of the spec). -/
def interp : Nat → Prog → EngineState → Option (EngineState × List Event)
  | 0, _, _ => none
  | _ + 1, Prog.skip, s => some (s, [])
  | fuel + 1, Prog.seq p q, s =>
    match interp fuel p s with
    | none => none
    | some (s1, t1) =>
      match interp fuel q s1 with
      | none => none
      | some (s2, t2) => some (s2, t1 ++ t2)
  | _ + 1, Prog.reactiveNew v, s => some (allocCell v s, [])
  | _ + 1, Prog.readCell c, s => some (getListen c s, [Event.read s.stack.getLast? c])
  | fuel + 1, Prog.update c f, s =>
    if f (cellValue s c) = cellValue s c then some (s, [])
    else
      match interp fuel (Prog.callList (depsOf s c)) (setCell c (f (cellValue s c)) s) with
      | none => none
      | some (s2, t) => some (s2, Event.notify c (depsOf s c) :: t)
  | fuel + 1, Prog.effect body, s =>
    match interp fuel body (pushEffect body s) with
    | none => none
    | some (s2, t) => some (popTop s2, Event.invoke s.nextEffectId :: t)
  | _ + 1, Prog.callList [], s => some (s, [])
  | fuel + 1, Prog.callList (e :: es), s =>
    match interp fuel (bodyOf s e) s with
    | none => none
    | some (s1, t1) =>
      match interp fuel (Prog.callList es) s1 with
      | none => none
      | some (s2, t2) => some (s2, Event.invoke e :: (t1 ++ t2))

/-- Every recorded effect set is duplicate-free — the model-level statement of
"`HashSet` holds each effect at most once". -/
def DepsNodup (s : EngineState) : Prop :=
  ∀ c, (depsOf s c).Nodup

def stateOf (r : Option (EngineState × List Event)) : EngineState :=
  (r.map Prod.fst).getD initState

def traceOf (r : Option (EngineState × List Event)) : List Event :=
  (r.map Prod.snd).getD []

/-- The lock-aware interpreter.  `interp` models no locks, so it can execute
past a point where the source self-deadlocks; `interpL` refines it with the
one lock fact that changes which runs terminate: the write-listener
`create_set_listen` holds the map's *read* guard (the `if let` scrutinee
temporary, borrowed by `effects`) across every `effect.call()` it performs.
The flag `held` says whether the current code runs under that guard.

The single blocking point this creates: the read-listener `create_get_listen`
reaches `map.write()` (src/scope.rs line 116 or 118) whenever the effect stack
is non-empty; a write acquisition while the same thread holds the read guard
can never be granted, so a read with a non-empty stack under `held` blocks
forever — modelled as `none`.  With an empty stack the read-listener returns
after `functions.read().last()` without touching the map, under `held` or not.
The `map.read()` re-acquisitions that set-listeners and the `contains_key`
check perform under an already-held read guard are modelled as succeeding
(read-read recursion; this is what the feasible test executions of the crate
exercise).  `update` runs its notification with `held := true`; everything
else passes the flag through unchanged and otherwise mirrors `interp`. -/
def interpL : Nat → Bool → Prog → EngineState → Option (EngineState × List Event)
  | 0, _, _, _ => none
  | _ + 1, _, Prog.skip, s => some (s, [])
  | fuel + 1, held, Prog.seq p q, s =>
    match interpL fuel held p s with
    | none => none
    | some (s1, t1) =>
      match interpL fuel held q s1 with
      | none => none
      | some (s2, t2) => some (s2, t1 ++ t2)
  | _ + 1, _, Prog.reactiveNew v, s => some (allocCell v s, [])
  | _ + 1, held, Prog.readCell c, s =>
    match s.stack.getLast? with
    | none => some (s, [Event.read none c])
    | some top =>
      if held then none
      else some (getListen c s, [Event.read (some top) c])
  | fuel + 1, _, Prog.update c f, s =>
    if f (cellValue s c) = cellValue s c then some (s, [])
    else
      match interpL fuel true (Prog.callList (depsOf s c)) (setCell c (f (cellValue s c)) s) with
      | none => none
      | some (s2, t) => some (s2, Event.notify c (depsOf s c) :: t)
  | fuel + 1, held, Prog.effect body, s =>
    match interpL fuel held body (pushEffect body s) with
    | none => none
    | some (s2, t) => some (popTop s2, Event.invoke s.nextEffectId :: t)
  | _ + 1, _, Prog.callList [], s => some (s, [])
  | fuel + 1, held, Prog.callList (e :: es), s =>
    match interpL fuel held (bodyOf s e) s with
    | none => none
    | some (s1, t1) =>
      match interpL fuel held (Prog.callList es) s1 with
      | none => none
      | some (s2, t2) => some (s2, Event.invoke e :: (t1 ++ t2))

/-! ## Part 4: lock-event traces of the Scope's two lock domains

`Scope` has two `RwLock`s of its own: `functions` (the effect stack) and `map`
(the dependency map).  The traces below record, in program order, where each
listed operation acquires and drops its guards relative to the callback
invocations it performs, following Rust's temporary-lifetime rules for the
source text (pre-2024 editions, which this crate must be: in
`create_set_listen` the `effects` binding borrows from the
`map.read().unwrap()` temporary, so that guard lives until the end of the
`if let` — the code would not borrow-check under the 2024 rules). -/

inductive LockEv where
  | acquireMapRead : LockEv
  | releaseMapRead : LockEv
  | acquireStackWrite : LockEv
  | releaseStackWrite : LockEv
  | callClosure : Nat → LockEv
deriving DecidableEq, Repr

/-- Lock/call events of one invocation of the write-listener built by
`Scope::create_set_listen` (src/scope.rs lines 125-134):
`if let Some(effects) = map.read().unwrap().get(&id) { effects.iter().for_each(|effect| effect.call()); }`.
The read guard is acquired when the scrutinee is evaluated; `effects` borrows
from it, so it is dropped only at the end of the `if let` — after every
`effect.call()`.  `entry` is the map lookup result for this cell's id. -/
def setListenLockTrace (entry : Option (List Nat)) : List LockEv :=
  match entry with
  | none => [LockEv.acquireMapRead, LockEv.releaseMapRead]
  | some es =>
    [LockEv.acquireMapRead] ++ es.map LockEv.callClosure ++ [LockEv.releaseMapRead]

/-- Lock/call events of `Scope::effect` (src/scope.rs lines 146-151) around the
stack lock: `functions.write().unwrap().push(..)` is one statement, so its
write guard is dropped at the statement's end, before `effect.call()`; the
`pop` statement acquires and drops a fresh guard afterwards. -/
def effectLockTrace (e : Nat) : List LockEv :=
  [LockEv.acquireStackWrite, LockEv.releaseStackWrite, LockEv.callClosure e,
   LockEv.acquireStackWrite, LockEv.releaseStackWrite]

/-- Whether the map read lock is held while the event at index `i` executes:
strictly more acquisitions than releases among the events before `i`. -/
def mapReadHeldAt (tr : List LockEv) (i : Nat) : Bool :=
  (tr.take i).count LockEv.acquireMapRead > (tr.take i).count LockEv.releaseMapRead

/-- Whether the stack write lock is held while the event at index `i`
executes. -/
def stackWriteHeldAt (tr : List LockEv) (i : Nat) : Bool :=
  (tr.take i).count LockEv.acquireStackWrite > (tr.take i).count LockEv.releaseStackWrite

/-! ## Demonstration programs (used by the concrete witness theorems) -/

/-- Create one cell (id 0, value 5) and register one effect (id 0) that reads
it during its initial run. -/
def demoReadProg : Prog :=
  Prog.seq (Prog.reactiveNew 5) (Prog.effect (Prog.readCell 0))

/-- Create one cell and register one effect whose initial run reads it twice. -/
def demoDoubleReadProg : Prog :=
  Prog.seq (Prog.reactiveNew 3) (Prog.effect (Prog.seq (Prog.readCell 0) (Prog.readCell 0)))

/-- The transform of the second demo effect's update: a no-op on the cell's
initial value 0, a change on every other value. -/
def demoStep (v : Nat) : Nat :=
  if v = 0 then 0 else v + 1

/-- Transitive-invocation scenario.  Cell 0 is C, cell 1 is D.  Effect 0 (E)
reads only D during its initial run.  Effect 1 (F) reads C and updates D with
`demoStep` (a no-op at D's then-current value 0).  Finally a top-level update
changes D to 5 (its notification re-runs E with an empty stack, recording
nothing).  After this setup, updating C re-invokes F, whose re-run changes D
from 5 to 6, whose notification invokes E — during `C.update`'s dynamic
extent, although E never read C. -/
def demoTransProg : Prog :=
  Prog.seq (Prog.reactiveNew 0)
    (Prog.seq (Prog.reactiveNew 0)
      (Prog.seq (Prog.effect (Prog.readCell 1))
        (Prog.seq (Prog.effect (Prog.seq (Prog.readCell 0) (Prog.update 1 demoStep)))
          (Prog.update 1 (fun v => v + 5)))))

/-! ## Helper lemmas: association lists, `hsInsert`, `getListen` -/

lemma depsGet_mapSet_self (m : List (Nat × List Nat)) (c : Nat) (v : List Nat) :
    depsGet (mapSet m c v) c = some v := by
  induction m with
  | nil => simp [mapSet, depsGet]
  | cons p rest ih =>
    by_cases hp : p.1 = c
    · simp [mapSet, depsGet, hp]
    · simp [mapSet, depsGet, hp, ih]

lemma depsGet_mapSet_other (m : List (Nat × List Nat)) (c c' : Nat) (v : List Nat)
    (h : c' ≠ c) : depsGet (mapSet m c v) c' = depsGet m c' := by
  have h2 : ¬(c = c') := fun hh => h hh.symm
  induction m with
  | nil => simp [mapSet, depsGet, h2]
  | cons p rest ih =>
    by_cases hp : p.1 = c
    · have hp' : ¬(p.1 = c') := by rw [hp]; exact h2
      simp [mapSet, depsGet, hp, hp', h2]
    · simp [mapSet, depsGet, hp, ih]

lemma depsGet_mapAdjust_self (m : List (Nat × List Nat)) (c : Nat)
    (f : List Nat → List Nat) : depsGet (mapAdjust m c f) c = (depsGet m c).map f := by
  induction m with
  | nil => simp [mapAdjust, depsGet]
  | cons p rest ih =>
    by_cases hp : p.1 = c
    · simp [mapAdjust, depsGet, hp]
    · simp [mapAdjust, depsGet, hp, ih]

lemma depsGet_mapAdjust_other (m : List (Nat × List Nat)) (c c' : Nat)
    (f : List Nat → List Nat) (h : c' ≠ c) :
    depsGet (mapAdjust m c f) c' = depsGet m c' := by
  have h2 : ¬(c = c') := fun hh => h hh.symm
  induction m with
  | nil => simp [mapAdjust, depsGet]
  | cons p rest ih =>
    by_cases hp : p.1 = c
    · have hp' : ¬(p.1 = c') := by rw [hp]; exact h2
      simp [mapAdjust, depsGet, hp, hp', h2]
    · simp [mapAdjust, depsGet, hp, ih]

lemma mem_hsInsert (a e : Nat) (l : List Nat) : a ∈ hsInsert l e ↔ a ∈ l ∨ a = e := by
  unfold hsInsert
  split
  · constructor
    · exact Or.inl
    · rintro (h | rfl)
      · exact h
      · assumption
  · simp

lemma self_mem_hsInsert (e : Nat) (l : List Nat) : e ∈ hsInsert l e :=
  (mem_hsInsert e e l).mpr (Or.inr rfl)

lemma hsInsert_nodup (e : Nat) (l : List Nat) (h : l.Nodup) : (hsInsert l e).Nodup := by
  unfold hsInsert
  split
  · exact h
  · rename_i hne
    simpa [List.nodup_append, h] using hne

/-- Core of the read-listener refinement: the source's two-step map mutation
(insert an empty set when the key is absent, then insert the effect into the
looked-up entry) equals the spec's one-shot description (write back the old or
empty entry with the effect inserted). -/
lemma listen_core (m : List (Nat × List Nat)) (c eff : Nat) :
    mapAdjust (if mapContains m c then m else mapSet m c []) c
        (fun set => hsInsert set eff) =
      mapSet m c (hsInsert ((depsGet m c).getD []) eff) := by
  induction m with
  | nil => simp [mapContains, depsGet, mapSet, mapAdjust]
  | cons p rest ih =>
    by_cases hp : p.1 = c
    · simp [mapContains, depsGet, mapSet, mapAdjust, hp]
    · have hcontains : mapContains (p :: rest) c = mapContains rest c := by
        simp [mapContains, depsGet, hp]
      have hget : depsGet (p :: rest) c = depsGet rest c := by
        simp [depsGet, hp]
      rw [hcontains, hget]
      by_cases hb : mapContains rest c = true
      · rw [if_pos hb]
        rw [if_pos hb] at ih
        simp [mapAdjust, mapSet, hp, ih]
      · rw [if_neg hb]
        rw [if_neg hb] at ih
        simp [mapAdjust, mapSet, hp, ih]

lemma getListen_stack (c : Nat) (s : EngineState) : (getListen c s).stack = s.stack := by
  unfold getListen
  cases s.stack.getLast? <;> rfl

lemma getListen_cells (c : Nat) (s : EngineState) : (getListen c s).cells = s.cells := by
  unfold getListen
  cases s.stack.getLast? <;> rfl

lemma getListen_bodies (c : Nat) (s : EngineState) : (getListen c s).bodies = s.bodies := by
  unfold getListen
  cases s.stack.getLast? <;> rfl

lemma getListen_nextEffectId (c : Nat) (s : EngineState) :
    (getListen c s).nextEffectId = s.nextEffectId := by
  unfold getListen
  cases s.stack.getLast? <;> rfl

lemma getListen_deps_none (c : Nat) (s : EngineState) (h : s.stack.getLast? = none) :
    getListen c s = s := by
  unfold getListen
  rw [h]

lemma getListen_deps_top (c eff : Nat) (s : EngineState)
    (h : s.stack.getLast? = some eff) :
    depsOf (getListen c s) c = hsInsert (depsOf s c) eff := by
  unfold getListen
  rw [h]
  show depsOf { s with deps := mapAdjust _ c _ } c = _
  unfold depsOf
  show (depsGet (mapAdjust (if mapContains s.deps c then s.deps else mapSet s.deps c [])
      c (fun set => hsInsert set eff)) c).getD [] = _
  rw [listen_core, depsGet_mapSet_self]
  rfl

lemma getListen_deps_other (c c' : Nat) (s : EngineState) (h : c' ≠ c) :
    depsOf (getListen c s) c' = depsOf s c' := by
  unfold getListen
  cases hl : s.stack.getLast? with
  | none => rfl
  | some eff =>
    show depsOf { s with deps := mapAdjust _ c _ } c' = _
    unfold depsOf
    show (depsGet (mapAdjust (if mapContains s.deps c then s.deps else mapSet s.deps c [])
        c (fun set => hsInsert set eff)) c').getD [] = _
    rw [listen_core, depsGet_mapSet_other _ _ _ _ h]

/-! ## Inversion lemmas for `interp` -/

lemma interp_skip_inv (n : Nat) (s s' : EngineState) (tr : List Event)
    (h : interp (n + 1) Prog.skip s = some (s', tr)) : s' = s ∧ tr = [] := by
  simp only [interp, Option.some.injEq, Prod.mk.injEq] at h
  exact ⟨h.1.symm, h.2.symm⟩

lemma interp_seq_inv (n : Nat) (p q : Prog) (s s' : EngineState) (tr : List Event)
    (h : interp (n + 1) (Prog.seq p q) s = some (s', tr)) :
    ∃ s1 t1 t2, interp n p s = some (s1, t1) ∧ interp n q s1 = some (s', t2) ∧
      tr = t1 ++ t2 := by
  simp only [interp] at h
  split at h
  · simp at h
  · rename_i s1 t1 h1
    split at h
    · simp at h
    · rename_i s2 t2 h2
      simp only [Option.some.injEq, Prod.mk.injEq] at h
      obtain ⟨h3, h4⟩ := h
      subst h3
      subst h4
      exact ⟨s1, t1, t2, h1, h2, rfl⟩

lemma interp_reactiveNew_inv (n : Nat) (v : Nat) (s s' : EngineState) (tr : List Event)
    (h : interp (n + 1) (Prog.reactiveNew v) s = some (s', tr)) :
    s' = allocCell v s ∧ tr = [] := by
  simp only [interp, Option.some.injEq, Prod.mk.injEq] at h
  exact ⟨h.1.symm, h.2.symm⟩

lemma interp_readCell_inv (n : Nat) (c : Nat) (s s' : EngineState) (tr : List Event)
    (h : interp (n + 1) (Prog.readCell c) s = some (s', tr)) :
    s' = getListen c s ∧ tr = [Event.read s.stack.getLast? c] := by
  simp only [interp, Option.some.injEq, Prod.mk.injEq] at h
  exact ⟨h.1.symm, h.2.symm⟩

lemma interp_update_inv (n : Nat) (c : Nat) (f : Nat → Nat) (s s' : EngineState)
    (tr : List Event) (h : interp (n + 1) (Prog.update c f) s = some (s', tr)) :
    (f (cellValue s c) = cellValue s c ∧ s' = s ∧ tr = []) ∨
      (¬f (cellValue s c) = cellValue s c ∧
        ∃ t, interp n (Prog.callList (depsOf s c)) (setCell c (f (cellValue s c)) s) =
            some (s', t) ∧
          tr = Event.notify c (depsOf s c) :: t) := by
  simp only [interp] at h
  by_cases hv : f (cellValue s c) = cellValue s c
  · rw [if_pos hv] at h
    simp only [Option.some.injEq, Prod.mk.injEq] at h
    exact Or.inl ⟨hv, h.1.symm, h.2.symm⟩
  · rw [if_neg hv] at h
    split at h
    · simp at h
    · rename_i s2 t h1
      simp only [Option.some.injEq, Prod.mk.injEq] at h
      obtain ⟨h3, h4⟩ := h
      subst h3
      subst h4
      exact Or.inr ⟨hv, t, h1, rfl⟩

lemma interp_effect_inv (n : Nat) (body : Prog) (s s' : EngineState) (tr : List Event)
    (h : interp (n + 1) (Prog.effect body) s = some (s', tr)) :
    ∃ s2 t, interp n body (pushEffect body s) = some (s2, t) ∧ s' = popTop s2 ∧
      tr = Event.invoke s.nextEffectId :: t := by
  simp only [interp] at h
  split at h
  · simp at h
  · rename_i s2 t h1
    simp only [Option.some.injEq, Prod.mk.injEq] at h
    exact ⟨s2, t, h1, h.1.symm, h.2.symm⟩

lemma interp_callList_nil_inv (n : Nat) (s s' : EngineState) (tr : List Event)
    (h : interp (n + 1) (Prog.callList []) s = some (s', tr)) : s' = s ∧ tr = [] := by
  simp only [interp, Option.some.injEq, Prod.mk.injEq] at h
  exact ⟨h.1.symm, h.2.symm⟩

lemma interp_callList_cons_inv (n : Nat) (e : Nat) (es : List Nat) (s s' : EngineState)
    (tr : List Event) (h : interp (n + 1) (Prog.callList (e :: es)) s = some (s', tr)) :
    ∃ s1 t1 t2, interp n (bodyOf s e) s = some (s1, t1) ∧
      interp n (Prog.callList es) s1 = some (s', t2) ∧
      tr = Event.invoke e :: (t1 ++ t2) := by
  simp only [interp] at h
  split at h
  · simp at h
  · rename_i s1 t1 h1
    split at h
    · simp at h
    · rename_i s2 t2 h2
      simp only [Option.some.injEq, Prod.mk.injEq] at h
      obtain ⟨h3, h4⟩ := h
      subst h3
      subst h4
      exact ⟨s1, t1, t2, h1, h2, rfl⟩

/-! ## Invariant lemmas for `interp` -/

/-- Every terminating run restores the effect stack: `Scope::effect` pops
exactly the element it pushed (the body having restored the stack beneath it),
and write-listener notification never touches the stack at all. -/
lemma interp_stack :
    ∀ (n : Nat) (p : Prog) (s s' : EngineState) (tr : List Event),
      interp n p s = some (s', tr) → s'.stack = s.stack := by
  intro n
  induction n with
  | zero => intro p s s' tr h; simp [interp] at h
  | succ n ih =>
    intro p s s' tr h
    cases p with
    | skip =>
      obtain ⟨rfl, -⟩ := interp_skip_inv n s s' tr h
      rfl
    | seq p q =>
      obtain ⟨s1, t1, t2, h1, h2, -⟩ := interp_seq_inv n p q s s' tr h
      rw [ih _ _ _ _ h2, ih _ _ _ _ h1]
    | reactiveNew v =>
      obtain ⟨rfl, -⟩ := interp_reactiveNew_inv n v s s' tr h
      rfl
    | readCell c =>
      obtain ⟨rfl, -⟩ := interp_readCell_inv n c s s' tr h
      exact getListen_stack c s
    | update c f =>
      rcases interp_update_inv n c f s s' tr h with ⟨-, rfl, -⟩ | ⟨-, t, h1, -⟩
      · rfl
      · exact ih (Prog.callList (depsOf s c)) (setCell c (f (cellValue s c)) s) s' t h1
    | effect body =>
      obtain ⟨s2, t, h1, rfl, -⟩ := interp_effect_inv n body s s' tr h
      have hs2 : s2.stack = s.stack ++ [s.nextEffectId] := ih _ _ _ _ h1
      show s2.stack.dropLast = s.stack
      rw [hs2]
      exact List.dropLast_concat
    | callList es =>
      cases es with
      | nil =>
        obtain ⟨rfl, -⟩ := interp_callList_nil_inv n s s' tr h
        rfl
      | cons e es =>
        obtain ⟨s1, t1, t2, h1, h2, -⟩ := interp_callList_cons_inv n e es s s' tr h
        rw [ih _ _ _ _ h2, ih _ _ _ _ h1]

lemma mem_of_getLast_eq_some {l : List Nat} {a : Nat} (h : l.getLast? = some a) :
    a ∈ l := by
  induction l with
  | nil => simp [List.getLast?] at h
  | cons x xs ih =>
    cases xs with
    | nil =>
      simp [List.getLast?] at h
      simp [h]
    | cons y ys =>
      rw [List.getLast?_cons_cons] at h
      exact List.mem_cons_of_mem x (ih h)

/-- The read-listener only ever adds to dependency sets. -/
lemma mem_depsOf_getListen (e c c' : Nat) (s : EngineState) (h : e ∈ depsOf s c) :
    e ∈ depsOf (getListen c' s) c := by
  by_cases hc : c = c'
  · subst hc
    cases hl : s.stack.getLast? with
    | none => rw [getListen_deps_none c s hl]; exact h
    | some eff =>
      rw [getListen_deps_top c eff s hl]
      exact (mem_hsInsert e eff (depsOf s c)).mpr (Or.inl h)
  · rw [getListen_deps_other c' c s hc]
    exact h

/-- The read-listener only adds the current top-of-stack effect, so an effect
not on the stack is never added. -/
lemma mem_depsOf_getListen_inv (e c c' : Nat) (s : EngineState) (hs : e ∉ s.stack)
    (h : e ∈ depsOf (getListen c' s) c) : e ∈ depsOf s c := by
  by_cases hc : c = c'
  · subst hc
    cases hl : s.stack.getLast? with
    | none => rwa [getListen_deps_none c s hl] at h
    | some eff =>
      rw [getListen_deps_top c eff s hl] at h
      rcases (mem_hsInsert e eff (depsOf s c)).mp h with h' | rfl
      · exact h'
      · exact absurd (mem_of_getLast_eq_some hl) hs
  · rwa [getListen_deps_other c' c s hc] at h

lemma depsNodup_getListen (c' : Nat) (s : EngineState) (h : DepsNodup s) :
    DepsNodup (getListen c' s) := by
  intro c
  by_cases hc : c = c'
  · subst hc
    cases hl : s.stack.getLast? with
    | none => rw [getListen_deps_none c s hl]; exact h c
    | some eff =>
      rw [getListen_deps_top c eff s hl]
      exact hsInsert_nodup eff (depsOf s c) (h c)
  · rw [getListen_deps_other c' c s hc]
    exact h c

/-- Dependency sets only grow across any terminating run (claim C6's
"no operation ever removes an effect from a dependency set"). -/
lemma interp_deps_mono :
    ∀ (n : Nat) (p : Prog) (s s' : EngineState) (tr : List Event),
      interp n p s = some (s', tr) → ∀ e c, e ∈ depsOf s c → e ∈ depsOf s' c := by
  intro n
  induction n with
  | zero => intro p s s' tr h; simp [interp] at h
  | succ n ih =>
    intro p s s' tr h e c hm
    cases p with
    | skip =>
      obtain ⟨rfl, -⟩ := interp_skip_inv n s s' tr h
      exact hm
    | seq p q =>
      obtain ⟨s1, t1, t2, h1, h2, -⟩ := interp_seq_inv n p q s s' tr h
      exact ih q s1 s' t2 h2 e c (ih p s s1 t1 h1 e c hm)
    | reactiveNew v =>
      obtain ⟨rfl, -⟩ := interp_reactiveNew_inv n v s s' tr h
      exact hm
    | readCell c' =>
      obtain ⟨rfl, -⟩ := interp_readCell_inv n c' s s' tr h
      exact mem_depsOf_getListen e c c' s hm
    | update c' f =>
      rcases interp_update_inv n c' f s s' tr h with ⟨-, rfl, -⟩ | ⟨-, t, h1, -⟩
      · exact hm
      · exact ih (Prog.callList (depsOf s c')) (setCell c' (f (cellValue s c')) s) s' t h1 e c hm
    | effect body =>
      obtain ⟨s2, t, h1, rfl, -⟩ := interp_effect_inv n body s s' tr h
      exact ih body (pushEffect body s) s2 t h1 e c hm
    | callList es =>
      cases es with
      | nil =>
        obtain ⟨rfl, -⟩ := interp_callList_nil_inv n s s' tr h
        exact hm
      | cons e' es =>
        obtain ⟨s1, t1, t2, h1, h2, -⟩ := interp_callList_cons_inv n e' es s s' tr h
        exact ih (Prog.callList es) s1 s' t2 h2 e c (ih (bodyOf s e') s s1 t1 h1 e c hm)

/-- A read credited to effect `e` (i.e. performed while `e` was top of stack)
leaves `e` in the final dependency set of the read cell. -/
lemma interp_read_recorded :
    ∀ (n : Nat) (p : Prog) (s s' : EngineState) (tr : List Event),
      interp n p s = some (s', tr) →
      ∀ e c, Event.read (some e) c ∈ tr → e ∈ depsOf s' c := by
  intro n
  induction n with
  | zero => intro p s s' tr h; simp [interp] at h
  | succ n ih =>
    intro p s s' tr h e c hev
    cases p with
    | skip =>
      obtain ⟨-, rfl⟩ := interp_skip_inv n s s' tr h
      simp at hev
    | seq p q =>
      obtain ⟨s1, t1, t2, h1, h2, rfl⟩ := interp_seq_inv n p q s s' tr h
      rcases List.mem_append.mp hev with hev1 | hev2
      · exact interp_deps_mono n q s1 s' t2 h2 e c (ih p s s1 t1 h1 e c hev1)
      · exact ih q s1 s' t2 h2 e c hev2
    | reactiveNew v =>
      obtain ⟨-, rfl⟩ := interp_reactiveNew_inv n v s s' tr h
      simp at hev
    | readCell c' =>
      obtain ⟨rfl, rfl⟩ := interp_readCell_inv n c' s s' tr h
      simp only [List.mem_singleton, Event.read.injEq] at hev
      obtain ⟨h5, h6⟩ := hev
      subst h6
      rw [getListen_deps_top c e s h5.symm]
      exact self_mem_hsInsert e (depsOf s c)
    | update c' f =>
      rcases interp_update_inv n c' f s s' tr h with ⟨-, -, rfl⟩ | ⟨-, t, h1, rfl⟩
      · simp at hev
      · simp only [List.mem_cons] at hev
        rcases hev with heq | hev
        · exact absurd heq (by simp)
        · exact ih (Prog.callList (depsOf s c')) (setCell c' (f (cellValue s c')) s) s' t h1 e c hev
    | effect body =>
      obtain ⟨s2, t, h1, rfl, rfl⟩ := interp_effect_inv n body s s' tr h
      simp only [List.mem_cons] at hev
      rcases hev with heq | hev
      · exact absurd heq (by simp)
      · exact ih body (pushEffect body s) s2 t h1 e c hev
    | callList es =>
      cases es with
      | nil =>
        obtain ⟨-, rfl⟩ := interp_callList_nil_inv n s s' tr h
        simp at hev
      | cons e' es =>
        obtain ⟨s1, t1, t2, h1, h2, rfl⟩ := interp_callList_cons_inv n e' es s s' tr h
        simp only [List.mem_cons] at hev
        rcases hev with heq | hev
        · exact absurd heq (by simp)
        · rcases List.mem_append.mp hev with hev1 | hev2
          · exact interp_deps_mono n (Prog.callList es) s1 s' t2 h2 e c
              (ih (bodyOf s e') s s1 t1 h1 e c hev1)
          · exact ih (Prog.callList es) s1 s' t2 h2 e c hev2

/-- An effect that is not on the stack and was allocated before the run starts
is never pushed (new effect ids are fresh) and never gains a dependency (the
read-listener only records the stack top).  This is "dependencies are fixed
after the first run". -/
lemma interp_fresh :
    ∀ (n : Nat) (p : Prog) (s s' : EngineState) (tr : List Event) (e : Nat),
      interp n p s = some (s', tr) → e ∉ s.stack → e < s.nextEffectId →
      e < s'.nextEffectId ∧ ∀ c, e ∈ depsOf s' c → e ∈ depsOf s c := by
  intro n
  induction n with
  | zero => intro p s s' tr e h; simp [interp] at h
  | succ n ih =>
    intro p s s' tr e h hs hlt
    cases p with
    | skip =>
      obtain ⟨rfl, -⟩ := interp_skip_inv n s s' tr h
      exact ⟨hlt, fun c hc => hc⟩
    | seq p q =>
      obtain ⟨s1, t1, t2, h1, h2, -⟩ := interp_seq_inv n p q s s' tr h
      have hstack1 : s1.stack = s.stack := interp_stack n p s s1 t1 h1
      obtain ⟨hlt1, hback1⟩ := ih p s s1 t1 e h1 hs hlt
      obtain ⟨hlt2, hback2⟩ := ih q s1 s' t2 e h2 (hstack1 ▸ hs) hlt1
      exact ⟨hlt2, fun c hc => hback1 c (hback2 c hc)⟩
    | reactiveNew v =>
      obtain ⟨rfl, -⟩ := interp_reactiveNew_inv n v s s' tr h
      exact ⟨hlt, fun c hc => hc⟩
    | readCell c' =>
      obtain ⟨rfl, -⟩ := interp_readCell_inv n c' s s' tr h
      rw [getListen_nextEffectId c' s]
      exact ⟨hlt, fun c hc => mem_depsOf_getListen_inv e c c' s hs hc⟩
    | update c' f =>
      rcases interp_update_inv n c' f s s' tr h with ⟨-, rfl, -⟩ | ⟨-, t, h1, -⟩
      · exact ⟨hlt, fun c hc => hc⟩
      · exact ih (Prog.callList (depsOf s c')) (setCell c' (f (cellValue s c')) s) s' t e h1 hs hlt
    | effect body =>
      obtain ⟨s2, t, h1, rfl, -⟩ := interp_effect_inv n body s s' tr h
      have hne : e ≠ s.nextEffectId := Nat.ne_of_lt hlt
      have hs1 : e ∉ (pushEffect body s).stack := by
        show e ∉ s.stack ++ [s.nextEffectId]
        simp [hs, hne]
      have hlt1 : e < (pushEffect body s).nextEffectId := Nat.lt_succ_of_lt hlt
      obtain ⟨hlt2, hback⟩ := ih body (pushEffect body s) s2 t e h1 hs1 hlt1
      exact ⟨hlt2, hback⟩
    | callList es =>
      cases es with
      | nil =>
        obtain ⟨rfl, -⟩ := interp_callList_nil_inv n s s' tr h
        exact ⟨hlt, fun c hc => hc⟩
      | cons e' es =>
        obtain ⟨s1, t1, t2, h1, h2, -⟩ := interp_callList_cons_inv n e' es s s' tr h
        have hstack1 : s1.stack = s.stack := interp_stack n (bodyOf s e') s s1 t1 h1
        obtain ⟨hlt1, hback1⟩ := ih (bodyOf s e') s s1 t1 e h1 hs hlt
        obtain ⟨hlt2, hback2⟩ := ih (Prog.callList es) s1 s' t2 e h2 (hstack1 ▸ hs) hlt1
        exact ⟨hlt2, fun c hc => hback1 c (hback2 c hc)⟩

/-- If no read during the run is credited to effect `E` on cell `C`, and `E`
is not yet in `C`'s dependency set, then it never enters it, and no
notification pass over `C` during the run calls `E` directly. -/
lemma interp_no_read_no_dep :
    ∀ (n : Nat) (p : Prog) (s s' : EngineState) (tr : List Event) (E C : Nat),
      interp n p s = some (s', tr) → Event.read (some E) C ∉ tr → E ∉ depsOf s C →
      E ∉ depsOf s' C ∧ ∀ es, Event.notify C es ∈ tr → E ∉ es := by
  intro n
  induction n with
  | zero => intro p s s' tr E C h; simp [interp] at h
  | succ n ih =>
    intro p s s' tr E C h hread hdep
    cases p with
    | skip =>
      obtain ⟨rfl, rfl⟩ := interp_skip_inv n s s' tr h
      exact ⟨hdep, by simp⟩
    | seq p q =>
      obtain ⟨s1, t1, t2, h1, h2, rfl⟩ := interp_seq_inv n p q s s' tr h
      have hr1 : Event.read (some E) C ∉ t1 := fun hh => hread (List.mem_append.mpr (Or.inl hh))
      have hr2 : Event.read (some E) C ∉ t2 := fun hh => hread (List.mem_append.mpr (Or.inr hh))
      obtain ⟨hd1, hn1⟩ := ih p s s1 t1 E C h1 hr1 hdep
      obtain ⟨hd2, hn2⟩ := ih q s1 s' t2 E C h2 hr2 hd1
      refine ⟨hd2, fun es hmem => ?_⟩
      rcases List.mem_append.mp hmem with hm1 | hm2
      · exact hn1 es hm1
      · exact hn2 es hm2
    | reactiveNew v =>
      obtain ⟨rfl, rfl⟩ := interp_reactiveNew_inv n v s s' tr h
      exact ⟨hdep, by simp⟩
    | readCell c' =>
      obtain ⟨rfl, rfl⟩ := interp_readCell_inv n c' s s' tr h
      refine ⟨?_, by simp⟩
      by_cases hc : C = c'
      · subst hc
        cases hl : s.stack.getLast? with
        | none => rw [getListen_deps_none C s hl]; exact hdep
        | some eff =>
          rw [getListen_deps_top C eff s hl]
          intro hmem
          rcases (mem_hsInsert E eff (depsOf s C)).mp hmem with h' | rfl
          · exact hdep h'
          · exact hread (by simp [hl])
      · rw [getListen_deps_other c' C s hc]
        exact hdep
    | update c' f =>
      rcases interp_update_inv n c' f s s' tr h with ⟨-, rfl, rfl⟩ | ⟨-, t, h1, rfl⟩
      · exact ⟨hdep, by simp⟩
      · have hrt : Event.read (some E) C ∉ t := fun hh => hread (List.mem_cons_of_mem _ hh)
        obtain ⟨hd1, hn1⟩ := ih (Prog.callList (depsOf s c'))
          (setCell c' (f (cellValue s c')) s) s' t E C h1 hrt hdep
        refine ⟨hd1, fun es hmem => ?_⟩
        rcases List.mem_cons.mp hmem with heq | hmem'
        · rw [Event.notify.injEq] at heq
          obtain ⟨hcc, hes⟩ := heq
          subst hcc
          subst hes
          exact hdep
        · exact hn1 es hmem'
    | effect body =>
      obtain ⟨s2, t, h1, rfl, rfl⟩ := interp_effect_inv n body s s' tr h
      have hrt : Event.read (some E) C ∉ t := fun hh => hread (List.mem_cons_of_mem _ hh)
      obtain ⟨hd1, hn1⟩ := ih body (pushEffect body s) s2 t E C h1 hrt hdep
      refine ⟨hd1, fun es hmem => ?_⟩
      rcases List.mem_cons.mp hmem with heq | hmem'
      · exact absurd heq (by simp)
      · exact hn1 es hmem'
    | callList es0 =>
      cases es0 with
      | nil =>
        obtain ⟨rfl, rfl⟩ := interp_callList_nil_inv n s s' tr h
        exact ⟨hdep, by simp⟩
      | cons e' es0 =>
        obtain ⟨s1, t1, t2, h1, h2, rfl⟩ := interp_callList_cons_inv n e' es0 s s' tr h
        have hr1 : Event.read (some E) C ∉ t1 := fun hh =>
          hread (List.mem_cons_of_mem _ (List.mem_append.mpr (Or.inl hh)))
        have hr2 : Event.read (some E) C ∉ t2 := fun hh =>
          hread (List.mem_cons_of_mem _ (List.mem_append.mpr (Or.inr hh)))
        obtain ⟨hd1, hn1⟩ := ih (bodyOf s e') s s1 t1 E C h1 hr1 hdep
        obtain ⟨hd2, hn2⟩ := ih (Prog.callList es0) s1 s' t2 E C h2 hr2 hd1
        refine ⟨hd2, fun es hmem => ?_⟩
        rcases List.mem_cons.mp hmem with heq | hmem'
        · exact absurd heq (by simp)
        · rcases List.mem_append.mp hmem' with hm1 | hm2
          · exact hn1 es hm1
          · exact hn2 es hm2

/-- Duplicate-freeness of every dependency set is preserved, and every
notification pass's direct-call list is duplicate-free. -/
lemma interp_nodup :
    ∀ (n : Nat) (p : Prog) (s s' : EngineState) (tr : List Event),
      interp n p s = some (s', tr) → DepsNodup s →
      DepsNodup s' ∧ ∀ c es, Event.notify c es ∈ tr → es.Nodup := by
  intro n
  induction n with
  | zero => intro p s s' tr h; simp [interp] at h
  | succ n ih =>
    intro p s s' tr h hnd
    cases p with
    | skip =>
      obtain ⟨rfl, rfl⟩ := interp_skip_inv n s s' tr h
      exact ⟨hnd, by simp⟩
    | seq p q =>
      obtain ⟨s1, t1, t2, h1, h2, rfl⟩ := interp_seq_inv n p q s s' tr h
      obtain ⟨hn1, hm1⟩ := ih p s s1 t1 h1 hnd
      obtain ⟨hn2, hm2⟩ := ih q s1 s' t2 h2 hn1
      refine ⟨hn2, fun c es hmem => ?_⟩
      rcases List.mem_append.mp hmem with hm | hm
      · exact hm1 c es hm
      · exact hm2 c es hm
    | reactiveNew v =>
      obtain ⟨rfl, rfl⟩ := interp_reactiveNew_inv n v s s' tr h
      exact ⟨hnd, by simp⟩
    | readCell c' =>
      obtain ⟨rfl, rfl⟩ := interp_readCell_inv n c' s s' tr h
      exact ⟨depsNodup_getListen c' s hnd, by simp⟩
    | update c' f =>
      rcases interp_update_inv n c' f s s' tr h with ⟨-, rfl, rfl⟩ | ⟨-, t, h1, rfl⟩
      · exact ⟨hnd, by simp⟩
      · obtain ⟨hn1, hm1⟩ := ih (Prog.callList (depsOf s c'))
          (setCell c' (f (cellValue s c')) s) s' t h1 hnd
        refine ⟨hn1, fun c es hmem => ?_⟩
        rcases List.mem_cons.mp hmem with heq | hmem'
        · rw [Event.notify.injEq] at heq
          obtain ⟨-, hes⟩ := heq
          subst hes
          exact hnd c'
        · exact hm1 c es hmem'
    | effect body =>
      obtain ⟨s2, t, h1, rfl, rfl⟩ := interp_effect_inv n body s s' tr h
      obtain ⟨hn1, hm1⟩ := ih body (pushEffect body s) s2 t h1 hnd
      refine ⟨hn1, fun c es hmem => ?_⟩
      rcases List.mem_cons.mp hmem with heq | hmem'
      · exact absurd heq (by simp)
      · exact hm1 c es hmem'
    | callList es0 =>
      cases es0 with
      | nil =>
        obtain ⟨rfl, rfl⟩ := interp_callList_nil_inv n s s' tr h
        exact ⟨hnd, by simp⟩
      | cons e' es0 =>
        obtain ⟨s1, t1, t2, h1, h2, rfl⟩ := interp_callList_cons_inv n e' es0 s s' tr h
        obtain ⟨hn1, hm1⟩ := ih (bodyOf s e') s s1 t1 h1 hnd
        obtain ⟨hn2, hm2⟩ := ih (Prog.callList es0) s1 s' t2 h2 hn1
        refine ⟨hn2, fun c es hmem => ?_⟩
        rcases List.mem_cons.mp hmem with heq | hmem'
        · exact absurd heq (by simp)
        · rcases List.mem_append.mp hmem' with hm | hm
          · exact hm1 c es hm
          · exact hm2 c es hm

/-- A terminating `callList` run invokes every listed effect (emits an
`invoke` event for each element). -/
lemma interp_callList_invokes :
    ∀ (n : Nat) (es : List Nat) (s s' : EngineState) (tr : List Event),
      interp n (Prog.callList es) s = some (s', tr) →
      ∀ e, e ∈ es → Event.invoke e ∈ tr := by
  intro n
  induction n with
  | zero => intro es s s' tr h; simp [interp] at h
  | succ n ih =>
    intro es s s' tr h e he
    cases es with
    | nil => simp at he
    | cons e' es =>
      obtain ⟨s1, t1, t2, h1, h2, rfl⟩ := interp_callList_cons_inv n e' es s s' tr h
      rcases List.mem_cons.mp he with rfl | he'
      · exact List.mem_cons_self _ _
      · exact List.mem_cons_of_mem _ (List.mem_append.mpr (Or.inr (ih es s1 s' t2 h2 e he')))

/-! ## Inversion and invariant lemmas for the lock-aware interpreter -/

lemma interpL_skip_inv (n : Nat) (held : Bool) (s s' : EngineState) (tr : List Event)
    (h : interpL (n + 1) held Prog.skip s = some (s', tr)) : s' = s ∧ tr = [] := by
  simp only [interpL, Option.some.injEq, Prod.mk.injEq] at h
  exact ⟨h.1.symm, h.2.symm⟩

lemma interpL_seq_inv (n : Nat) (held : Bool) (p q : Prog) (s s' : EngineState)
    (tr : List Event) (h : interpL (n + 1) held (Prog.seq p q) s = some (s', tr)) :
    ∃ s1 t1 t2, interpL n held p s = some (s1, t1) ∧
      interpL n held q s1 = some (s', t2) ∧ tr = t1 ++ t2 := by
  simp only [interpL] at h
  split at h
  · simp at h
  · rename_i s1 t1 h1
    split at h
    · simp at h
    · rename_i s2 t2 h2
      simp only [Option.some.injEq, Prod.mk.injEq] at h
      obtain ⟨h3, h4⟩ := h
      subst h3
      subst h4
      exact ⟨s1, t1, t2, h1, h2, rfl⟩

lemma interpL_reactiveNew_inv (n : Nat) (held : Bool) (v : Nat) (s s' : EngineState)
    (tr : List Event) (h : interpL (n + 1) held (Prog.reactiveNew v) s = some (s', tr)) :
    s' = allocCell v s ∧ tr = [] := by
  simp only [interpL, Option.some.injEq, Prod.mk.injEq] at h
  exact ⟨h.1.symm, h.2.symm⟩

/-- A read terminates only in two ways: the stack is empty and the
read-listener records nothing, or the listener's guard is not held and the
recording goes through.  A read with a non-empty stack under the held map
guard blocks at `map.write()` and has no terminating case. -/
lemma interpL_readCell_inv (n : Nat) (held : Bool) (c : Nat) (s s' : EngineState)
    (tr : List Event) (h : interpL (n + 1) held (Prog.readCell c) s = some (s', tr)) :
    (s.stack.getLast? = none ∧ s' = s ∧ tr = [Event.read none c]) ∨
      (∃ top, s.stack.getLast? = some top ∧ held = false ∧ s' = getListen c s ∧
        tr = [Event.read (some top) c]) := by
  simp only [interpL] at h
  split at h
  · rename_i hl
    simp only [Option.some.injEq, Prod.mk.injEq] at h
    exact Or.inl ⟨hl, h.1.symm, h.2.symm⟩
  · rename_i top hl
    by_cases hb : held = true
    · rw [if_pos hb] at h
      simp at h
    · rw [if_neg hb] at h
      simp only [Option.some.injEq, Prod.mk.injEq] at h
      have hb' : held = false := by simpa using hb
      exact Or.inr ⟨top, hl, hb', h.1.symm, h.2.symm⟩

lemma interpL_update_inv (n : Nat) (held : Bool) (c : Nat) (f : Nat → Nat)
    (s s' : EngineState) (tr : List Event)
    (h : interpL (n + 1) held (Prog.update c f) s = some (s', tr)) :
    (f (cellValue s c) = cellValue s c ∧ s' = s ∧ tr = []) ∨
      (¬f (cellValue s c) = cellValue s c ∧
        ∃ t, interpL n true (Prog.callList (depsOf s c))
            (setCell c (f (cellValue s c)) s) = some (s', t) ∧
          tr = Event.notify c (depsOf s c) :: t) := by
  simp only [interpL] at h
  by_cases hv : f (cellValue s c) = cellValue s c
  · rw [if_pos hv] at h
    simp only [Option.some.injEq, Prod.mk.injEq] at h
    exact Or.inl ⟨hv, h.1.symm, h.2.symm⟩
  · rw [if_neg hv] at h
    split at h
    · simp at h
    · rename_i s2 t h1
      simp only [Option.some.injEq, Prod.mk.injEq] at h
      obtain ⟨h3, h4⟩ := h
      subst h3
      subst h4
      exact Or.inr ⟨hv, t, h1, rfl⟩

lemma interpL_effect_inv (n : Nat) (held : Bool) (body : Prog) (s s' : EngineState)
    (tr : List Event) (h : interpL (n + 1) held (Prog.effect body) s = some (s', tr)) :
    ∃ s2 t, interpL n held body (pushEffect body s) = some (s2, t) ∧ s' = popTop s2 ∧
      tr = Event.invoke s.nextEffectId :: t := by
  simp only [interpL] at h
  split at h
  · simp at h
  · rename_i s2 t h1
    simp only [Option.some.injEq, Prod.mk.injEq] at h
    exact ⟨s2, t, h1, h.1.symm, h.2.symm⟩

lemma interpL_callList_nil_inv (n : Nat) (held : Bool) (s s' : EngineState)
    (tr : List Event) (h : interpL (n + 1) held (Prog.callList []) s = some (s', tr)) :
    s' = s ∧ tr = [] := by
  simp only [interpL, Option.some.injEq, Prod.mk.injEq] at h
  exact ⟨h.1.symm, h.2.symm⟩

lemma interpL_callList_cons_inv (n : Nat) (held : Bool) (e : Nat) (es : List Nat)
    (s s' : EngineState) (tr : List Event)
    (h : interpL (n + 1) held (Prog.callList (e :: es)) s = some (s', tr)) :
    ∃ s1 t1 t2, interpL n held (bodyOf s e) s = some (s1, t1) ∧
      interpL n held (Prog.callList es) s1 = some (s', t2) ∧
      tr = Event.invoke e :: (t1 ++ t2) := by
  simp only [interpL] at h
  split at h
  · simp at h
  · rename_i s1 t1 h1
    split at h
    · simp at h
    · rename_i s2 t2 h2
      simp only [Option.some.injEq, Prod.mk.injEq] at h
      obtain ⟨h3, h4⟩ := h
      subst h3
      subst h4
      exact ⟨s1, t1, t2, h1, h2, rfl⟩

/-- The three C6 invariants of every terminating lock-aware run: dependency
sets only grow; a run performed entirely under the write-listener's held map
guard (a notification, i.e. the re-runs it triggers) leaves the dependency map
exactly unchanged — a terminating read inside it has an empty stack and the
read-listener records nothing; and the stack ends as it began. -/
lemma interpL_invariants :
    ∀ (n : Nat) (held : Bool) (p : Prog) (s s' : EngineState) (tr : List Event),
      interpL n held p s = some (s', tr) →
      (∀ e c, e ∈ depsOf s c → e ∈ depsOf s' c) ∧
        (held = true → s'.deps = s.deps) ∧ s'.stack = s.stack := by
  intro n
  induction n with
  | zero => intro held p s s' tr h; simp [interpL] at h
  | succ n ih =>
    intro held p s s' tr h
    cases p with
    | skip =>
      obtain ⟨rfl, -⟩ := interpL_skip_inv n held s s' tr h
      exact ⟨fun e c hm => hm, fun _ => rfl, rfl⟩
    | seq p q =>
      obtain ⟨s1, t1, t2, h1, h2, -⟩ := interpL_seq_inv n held p q s s' tr h
      obtain ⟨m1, d1, st1⟩ := ih held p s s1 t1 h1
      obtain ⟨m2, d2, st2⟩ := ih held q s1 s' t2 h2
      exact ⟨fun e c hm => m2 e c (m1 e c hm), fun hh => (d2 hh).trans (d1 hh), st2.trans st1⟩
    | reactiveNew v =>
      obtain ⟨rfl, -⟩ := interpL_reactiveNew_inv n held v s s' tr h
      exact ⟨fun e c hm => hm, fun _ => rfl, rfl⟩
    | readCell c' =>
      rcases interpL_readCell_inv n held c' s s' tr h with ⟨-, rfl, -⟩ |
        ⟨top, hl, hheld, rfl, -⟩
      · exact ⟨fun e c hm => hm, fun _ => rfl, rfl⟩
      · refine ⟨fun e c hm => mem_depsOf_getListen e c c' s hm, fun hh => ?_,
          getListen_stack c' s⟩
        exact absurd hh (by simp [hheld])
    | update c' f =>
      rcases interpL_update_inv n held c' f s s' tr h with ⟨-, rfl, -⟩ | ⟨-, t, h1, -⟩
      · exact ⟨fun e c hm => hm, fun _ => rfl, rfl⟩
      · obtain ⟨m1, d1, st1⟩ := ih true (Prog.callList (depsOf s c'))
          (setCell c' (f (cellValue s c')) s) s' t h1
        exact ⟨fun e c hm => m1 e c hm, fun _ => d1 rfl, st1⟩
    | effect body =>
      obtain ⟨s2, t, h1, rfl, -⟩ := interpL_effect_inv n held body s s' tr h
      obtain ⟨m1, d1, st1⟩ := ih held body (pushEffect body s) s2 t h1
      have hst : s2.stack = s.stack ++ [s.nextEffectId] := st1
      refine ⟨fun e c hm => m1 e c hm, fun hh => d1 hh, ?_⟩
      show s2.stack.dropLast = s.stack
      rw [hst]
      exact List.dropLast_concat
    | callList es0 =>
      cases es0 with
      | nil =>
        obtain ⟨rfl, -⟩ := interpL_callList_nil_inv n held s s' tr h
        exact ⟨fun e c hm => hm, fun _ => rfl, rfl⟩
      | cons e' es0 =>
        obtain ⟨s1, t1, t2, h1, h2, -⟩ := interpL_callList_cons_inv n held e' es0 s s' tr h
        obtain ⟨m1, d1, st1⟩ := ih held (bodyOf s e') s s1 t1 h1
        obtain ⟨m2, d2, st2⟩ := ih held (Prog.callList es0) s1 s' t2 h2
        exact ⟨fun e c hm => m2 e c (m1 e c hm), fun hh => (d2 hh).trans (d1 hh), st2.trans st1⟩

/-! ## Claim theorems C2, C3, C4, C10 -/

/-- Claim C2: for a cell with current value `old` and a transform `f` with
`f(old) ≠ old`, after `update(f)` the cell's `value()` returns `f(old)`, and
each write-observer registered before the update is invoked exactly once with
arguments `(f(old), old)`, in registration order.  The invocation list produced
by `reactiveUpdate` is exactly the registration-ordered observer list mapped to
the pair of arguments, which is "each exactly once, in order". -/
theorem c2_changed_update_notifies_each_observer_once {T O : Type} [DecidableEq T]
    (inner : RInner T O) (f : T → T) (h : f inner.value ≠ inner.value) :
    (RInner.valueOp (reactiveUpdate inner f).1).1 = f inner.value ∧
      (reactiveUpdate inner f).2 =
        inner.setterObservers.map (fun obs => (obs, f inner.value, inner.value)) := by
  unfold reactiveUpdate RInner.update
  rw [if_pos h]
  exact ⟨rfl, rfl⟩

theorem c2_witness :
    (RInner.valueOp (reactiveUpdate (⟨5, [], [7, 8]⟩ : RInner Nat Nat) (fun x => x + 1)).1).1 =
        (fun x => x + 1) 5 ∧
      (reactiveUpdate (⟨5, [], [7, 8]⟩ : RInner Nat Nat) (fun x => x + 1)).2 =
        [7, 8].map (fun obs => (obs, (fun x => x + 1) 5, 5)) :=
  c2_changed_update_notifies_each_observer_once (⟨5, [], [7, 8]⟩ : RInner Nat Nat)
    (fun x => x + 1) (by decide)

/-- Claim C3: for a cell with current value `old` and a transform `f` with
`f(old) = old`, `update(f)` leaves the stored state unchanged (in particular
`value()` is unchanged) and invokes zero write-observers. -/
theorem c3_noop_update_fires_no_observer {T O : Type} [DecidableEq T]
    (inner : RInner T O) (f : T → T) (h : f inner.value = inner.value) :
    (reactiveUpdate inner f).1 = inner ∧ (reactiveUpdate inner f).2 = [] := by
  unfold reactiveUpdate RInner.update
  rw [if_neg (by simpa using h)]
  exact ⟨rfl, rfl⟩

theorem c3_witness :
    (reactiveUpdate (⟨5, [], [7, 8]⟩ : RInner Nat Nat) (fun x => x)).1 =
        (⟨5, [], [7, 8]⟩ : RInner Nat Nat) ∧
      (reactiveUpdate (⟨5, [], [7, 8]⟩ : RInner Nat Nat) (fun x => x)).2 = [] :=
  c3_noop_update_fires_no_observer (⟨5, [], [7, 8]⟩ : RInner Nat Nat) (fun x => x) rfl

/-- Claim C4: the read-listener installed by `Scope::reactive` behaves exactly
as the spec describes — when the effect stack is non-empty it inserts the
top-of-stack effect into the set for the cell's identity, creating an empty set
first if the map has no entry; when the stack is empty it is a no-op and the
whole state (dependency map included) is unchanged.  Stated as extensional
equality between the source-derived `getListen` and the spec-derived
`readListenerSpec`. -/
theorem c4_read_listener_matches_spec (c : Nat) (s : EngineState) :
    getListen c s = readListenerSpec c s := by
  unfold getListen readListenerSpec
  cases hl : s.stack.getLast? with
  | none => rfl
  | some eff =>
    show { s with deps := mapAdjust _ c _ } = { s with deps := mapSet _ c _ }
    rw [listen_core]

/-- Claim C1: if a read of cell `C` was credited to effect `E` (i.e. `E` was
top of the effect stack when `C.value()` ran — which is the case whenever `E`'s
own closure reads `C` during its initial synchronous run), then any later
`C.update(g)` whose result differs from the stored value, and which returns,
invokes `E`'s closure at least once before returning: `invoke E` is in the
update call's own event trace.  `p` is the arbitrary remainder of the run
between `E`'s registration and the update. -/
theorem c1_read_dependency_reinvoked_on_update
    (n1 n2 : Nat) (p : Prog) (s s1 s2 : EngineState) (tr1 tr2 : List Event)
    (E C : Nat) (g : Nat → Nat)
    (h1 : interp n1 p s = some (s1, tr1))
    (h2 : Event.read (some E) C ∈ tr1)
    (h3 : interp n2 (Prog.update C g) s1 = some (s2, tr2))
    (h4 : g (cellValue s1 C) ≠ cellValue s1 C) :
    Event.invoke E ∈ tr2 := by
  have hdep : E ∈ depsOf s1 C := interp_read_recorded n1 p s s1 tr1 h1 E C h2
  cases n2 with
  | zero => simp [interp] at h3
  | succ n =>
    rcases interp_update_inv n C g s1 s2 tr2 h3 with ⟨hv, -, -⟩ | ⟨-, t, h5, rfl⟩
    · exact absurd hv h4
    · exact List.mem_cons_of_mem _
        (interp_callList_invokes n (depsOf s1 C) _ s2 t h5 E hdep)

theorem c1_witness :
    Event.invoke 0 ∈ traceOf (interp 20 (Prog.update 0 (fun v => v + 1))
      (stateOf (interp 20 demoReadProg initState))) :=
  c1_read_dependency_reinvoked_on_update 20 20 demoReadProg initState
    (stateOf (interp 20 demoReadProg initState))
    (stateOf (interp 20 (Prog.update 0 (fun v => v + 1))
      (stateOf (interp 20 demoReadProg initState))))
    (traceOf (interp 20 demoReadProg initState))
    (traceOf (interp 20 (Prog.update 0 (fun v => v + 1))
      (stateOf (interp 20 demoReadProg initState))))
    0 0 (fun v => v + 1) rfl (by decide) rfl (by decide)

/-- Claim C5, counterexample to the statement as written.  In
`demoTransProg`, effect 0 (E) never reads cell 0 (C) during its initial run —
no read event is ever credited to it on cell 0, in the whole setup trace —
yet the later `C.update` (which changes C's value) invokes E's closure before
returning: E is re-run transitively, because the update directly re-invokes
effect 1 (F), whose re-run changes cell 1 (D), whose notification pass invokes
E.  So "no call C.update(g) ever invokes E's closure" is false as stated. -/
theorem c5_counterexample_transitive_invoke :
    Event.read (some 0) 0 ∉ traceOf (interp 40 demoTransProg initState) ∧
      Event.read (some 0) 0 ∉ traceOf (interp 40 (Prog.update 0 (fun v => v + 1))
        (stateOf (interp 40 demoTransProg initState))) ∧
      (fun v => v + 1) (cellValue (stateOf (interp 40 demoTransProg initState)) 0) ≠
        cellValue (stateOf (interp 40 demoTransProg initState)) 0 ∧
      Event.invoke 0 ∈ traceOf (interp 40 (Prog.update 0 (fun v => v + 1))
        (stateOf (interp 40 demoTransProg initState))) :=
  ⟨by decide, by decide, by decide, by decide⟩

/-- Claim C5, amended: if effect `E` never reads cell `C` during its initial
run (no read event is ever credited to `E` on `C`, neither in the setup run
nor during the update), and `E` is not initially subscribed to `C`, then `E`
never enters `C`'s dependency set, so no notification pass over `C` performed
by `C.update(g)` ever invokes `E` *directly*: `E` is absent from the
direct-call list of every such pass.  (`E` may still run transitively, as the
counterexample shows, when an effect that *is* subscribed to `C` writes some
other cell that `E` depends on.) -/
theorem c5_never_read_never_directly_invoked
    (n1 n2 : Nat) (p : Prog) (s s1 s2 : EngineState) (tr1 tr2 : List Event)
    (E C : Nat) (g : Nat → Nat)
    (h1 : interp n1 p s = some (s1, tr1))
    (hr1 : Event.read (some E) C ∉ tr1)
    (hd : E ∉ depsOf s C)
    (h2 : interp n2 (Prog.update C g) s1 = some (s2, tr2))
    (hr2 : Event.read (some E) C ∉ tr2) :
    ∀ es, Event.notify C es ∈ tr2 → E ∉ es := by
  have hd1 : E ∉ depsOf s1 C := (interp_no_read_no_dep n1 p s s1 tr1 E C h1 hr1 hd).1
  exact (interp_no_read_no_dep n2 (Prog.update C g) s1 s2 tr2 E C h2 hr2 hd1).2

theorem c5_witness : (0 : Nat) ∉ [1] :=
  c5_never_read_never_directly_invoked 40 40 demoTransProg initState
    (stateOf (interp 40 demoTransProg initState))
    (stateOf (interp 40 (Prog.update 0 (fun v => v + 1))
      (stateOf (interp 40 demoTransProg initState))))
    (traceOf (interp 40 demoTransProg initState))
    (traceOf (interp 40 (Prog.update 0 (fun v => v + 1))
      (stateOf (interp 40 demoTransProg initState))))
    0 0 (fun v => v + 1) rfl (by decide) (by decide) rfl (by decide) [1] (by decide)

/-- Claim C6: dependencies are fixed after an effect's first run, stated over
the lock-aware interpreter `interpL` (only it distinguishes the runs the
source can actually complete).  (1) "No operation ever removes an effect from
a dependency set": dependency sets only grow across any terminating run.
(2) "When a write-listener re-invokes an effect it is not pushed back onto
the stack, so any cell read during the re-run records no new dependency":
re-invocation happens entirely under the write-listener's held map read guard
(`held = true`), and every terminating run under that guard leaves the
dependency map exactly unchanged — a read with an empty stack is a no-op of
the read-listener, and a read with a non-empty stack under the guard never
terminates (it blocks at the read-listener's `map.write()`), so no
terminating re-run records anything.  (3) The run leaves the stack as it
found it: re-invoked effects are never pushed, and `effect` pops exactly what
it pushed. -/
theorem c6_dependencies_fixed_after_first_run
    (n : Nat) (held : Bool) (p : Prog) (s s' : EngineState) (tr : List Event) (e c : Nat)
    (h : interpL n held p s = some (s', tr)) :
    (e ∈ depsOf s c → e ∈ depsOf s' c) ∧
      (held = true → s'.deps = s.deps) ∧
      s'.stack = s.stack :=
  ⟨fun hm => (interpL_invariants n held p s s' tr h).1 e c hm,
   (interpL_invariants n held p s s' tr h).2.1,
   (interpL_invariants n held p s s' tr h).2.2⟩

theorem c6_witness :
    (0 ∈ depsOf (stateOf (interp 20 demoReadProg initState)) 0 →
        0 ∈ depsOf (stateOf (interpL 20 true (Prog.callList [0])
          (stateOf (interp 20 demoReadProg initState)))) 0) ∧
      (true = true →
        (stateOf (interpL 20 true (Prog.callList [0])
            (stateOf (interp 20 demoReadProg initState)))).deps =
          (stateOf (interp 20 demoReadProg initState)).deps) ∧
      (stateOf (interpL 20 true (Prog.callList [0])
          (stateOf (interp 20 demoReadProg initState)))).stack =
        (stateOf (interp 20 demoReadProg initState)).stack :=
  c6_dependencies_fixed_after_first_run 20 true (Prog.callList [0])
    (stateOf (interp 20 demoReadProg initState))
    (stateOf (interpL 20 true (Prog.callList [0])
      (stateOf (interp 20 demoReadProg initState))))
    (traceOf (interpL 20 true (Prog.callList [0])
      (stateOf (interp 20 demoReadProg initState))))
    0 0 rfl

/-- Claim C7: nested effect registration.  Running
`scope.effect(|| scope.effect(|| c.value()))` from any state succeeds (given
fuel), the cell read inside the inner closure records the dependency on the
*inner* effect (the freshly allocated id `nextEffectId + 1`, which is on top
of the stack while the inner closure runs), the *outer* effect
(`nextEffectId`) gains no subscription on `c` from this read, and each
`effect()` call pops exactly the effect it pushed, so the stack ends as it
began. -/
theorem c7_nested_effects (n : Nat) (s : EngineState) (c : Nat) :
    ∃ s' tr,
      interp (n + 3) (Prog.effect (Prog.effect (Prog.readCell c))) s = some (s', tr) ∧
        s.nextEffectId + 1 ∈ depsOf s' c ∧
        (s.nextEffectId ∈ depsOf s' c ↔ s.nextEffectId ∈ depsOf s c) ∧
        s'.stack = s.stack := by
  have hl : (pushEffect (Prog.readCell c)
      (pushEffect (Prog.effect (Prog.readCell c)) s)).stack.getLast? =
      some (s.nextEffectId + 1) := by
    show ((s.stack ++ [s.nextEffectId]) ++ [s.nextEffectId + 1]).getLast? = _
    exact List.getLast?_concat _
  refine ⟨popTop (popTop (getListen c (pushEffect (Prog.readCell c)
    (pushEffect (Prog.effect (Prog.readCell c)) s)))), _, rfl, ?_, ?_, ?_⟩
  · show s.nextEffectId + 1 ∈ depsOf (getListen c (pushEffect (Prog.readCell c)
      (pushEffect (Prog.effect (Prog.readCell c)) s))) c
    rw [getListen_deps_top c (s.nextEffectId + 1) _ hl]
    exact self_mem_hsInsert _ _
  · show s.nextEffectId ∈ depsOf (getListen c (pushEffect (Prog.readCell c)
      (pushEffect (Prog.effect (Prog.readCell c)) s))) c ↔ _
    rw [getListen_deps_top c (s.nextEffectId + 1) _ hl]
    constructor
    · intro hmem
      rcases (mem_hsInsert _ _ _).mp hmem with h' | h'
      · exact h'
      · exact absurd h' (Nat.ne_of_lt (Nat.lt_succ_self _))
    · intro hmem
      exact (mem_hsInsert _ _ _).mpr (Or.inl hmem)
  · show ((getListen c (pushEffect (Prog.readCell c)
      (pushEffect (Prog.effect (Prog.readCell c)) s))).stack.dropLast).dropLast = s.stack
    rw [getListen_stack]
    show (((s.stack ++ [s.nextEffectId]) ++ [s.nextEffectId + 1]).dropLast).dropLast = s.stack
    rw [List.dropLast_concat, List.dropLast_concat]

/-- Claim C9: subscribed effects are stored in a set keyed by effect id, so
repeated reads of the same cell by the same running effect insert it only
once, every dependency set stays duplicate-free, and consequently the
direct-call list of every changed update's notification pass (the `es` of its
`notify` event — the pass invokes each element of that list exactly once, in
order) contains each subscribed effect exactly once. -/
theorem c9_each_subscribed_effect_called_once_per_pass
    (n : Nat) (p : Prog) (s s' : EngineState) (tr : List Event)
    (h : interp n p s = some (s', tr)) (hnd : DepsNodup s) :
    DepsNodup s' ∧ ∀ c es, Event.notify c es ∈ tr → es.Nodup :=
  interp_nodup n p s s' tr h hnd

theorem c9_witness :
    DepsNodup (stateOf (interp 30 (Prog.seq demoDoubleReadProg
        (Prog.update 0 (fun v => v + 1))) initState)) ∧
      ∀ c es, Event.notify c es ∈ traceOf (interp 30 (Prog.seq demoDoubleReadProg
        (Prog.update 0 (fun v => v + 1))) initState) → es.Nodup :=
  c9_each_subscribed_effect_called_once_per_pass 30
    (Prog.seq demoDoubleReadProg (Prog.update 0 (fun v => v + 1))) initState
    (stateOf (interp 30 (Prog.seq demoDoubleReadProg
      (Prog.update 0 (fun v => v + 1))) initState))
    (traceOf (interp 30 (Prog.seq demoDoubleReadProg
      (Prog.update 0 (fun v => v + 1))) initState))
    rfl (fun _ => List.nodup_nil)

lemma count_take_map_callClosure (x : LockEv) (hx : ∀ a : Nat, x ≠ LockEv.callClosure a)
    (es : List Nat) (j : Nat) :
    ((es.map LockEv.callClosure).take j).count x = 0 := by
  rw [List.count_eq_zero]
  intro hmem
  obtain ⟨a, -, ha⟩ := List.mem_map.mp (List.take_subset _ _ hmem)
  exact hx a ha.symm

/-- Claim C8, counterexample.  The claim says the dependency-map lock is never
held across a callback invocation.  But in `create_set_listen` the
`map.read()` guard lives for the whole `if let` (the `effects` binding borrows
from it), so with a one-element effect set the `callClosure` event at index 1
of the listener's lock trace happens while the map read lock is held: the
universally quantified form of the claim is false. -/
theorem c8_counterexample_map_lock_held_across_callback :
    ¬ (∀ (entry : Option (List Nat)) (i e : Nat),
        (setListenLockTrace entry)[i]? = some (LockEv.callClosure e) →
        mapReadHeldAt (setListenLockTrace entry) i = false) := by
  intro hall
  exact absurd (hall (some [0]) 1 0 (by decide)) (by decide)

/-- Claim C8, amended: the Scope's effect-stack lock is indeed acquired only
for the brief push/pop and is never held while `Scope::effect` invokes the
effect's closure; the dependency-map lock, however, is held (as a read guard)
across *every* effect invocation the write-listener performs, because the
guard temporary in the `if let` scrutinee lives until the end of the branch.
Consequently an effect body re-invoked by a notification that needs the map's
write lock (e.g. the first read of a still-untracked cell while some effect is
on the stack) deadlocks on the scope's own bookkeeping. -/
theorem c8_lock_discipline_amended :
    (∀ (e i e' : Nat), (effectLockTrace e)[i]? = some (LockEv.callClosure e') →
        stackWriteHeldAt (effectLockTrace e) i = false) ∧
      (∀ (entry : Option (List Nat)) (i e' : Nat),
        (setListenLockTrace entry)[i]? = some (LockEv.callClosure e') →
        mapReadHeldAt (setListenLockTrace entry) i = true) := by
  constructor
  · intro e i e' h
    match i with
    | 0 => simp [effectLockTrace] at h
    | 1 => simp [effectLockTrace] at h
    | 2 => rfl
    | 3 => simp [effectLockTrace] at h
    | 4 => simp [effectLockTrace] at h
    | (m + 5) => simp [effectLockTrace] at h
  · intro entry i e' h
    cases entry with
    | none =>
      match i with
      | 0 => simp [setListenLockTrace] at h
      | 1 => simp [setListenLockTrace] at h
      | (m + 2) => simp [setListenLockTrace] at h
    | some es =>
      match i with
      | 0 => simp [setListenLockTrace] at h
      | (j + 1) =>
        have h' : (es.map LockEv.callClosure ++ [LockEv.releaseMapRead])[j]? =
            some (LockEv.callClosure e') := by
          rw [show setListenLockTrace (some es) = LockEv.acquireMapRead ::
            (es.map LockEv.callClosure ++ [LockEv.releaseMapRead]) from by
              simp [setListenLockTrace]] at h
          rw [List.getElem?_cons_succ] at h
          exact h
        have hlen : j < (es.map LockEv.callClosure).length := by
          by_contra hge
          push_neg at hge
          rw [List.getElem?_append_right hge] at h'
          cases hk : j - (es.map LockEv.callClosure).length with
          | zero => rw [hk] at h'; simp at h'
          | succ m => rw [hk] at h'; simp at h'
        have htake : (setListenLockTrace (some es)).take (j + 1) =
            LockEv.acquireMapRead :: (es.map LockEv.callClosure).take j := by
          show (LockEv.acquireMapRead :: (es.map LockEv.callClosure ++
            [LockEv.releaseMapRead])).take (j + 1) = _
          rw [List.take_succ_cons]
          congr 1
          exact List.take_append_of_le_length (Nat.le_of_lt hlen)
        show mapReadHeldAt (setListenLockTrace (some es)) (j + 1) = true
        unfold mapReadHeldAt
        rw [htake]
        simp [List.count_cons,
          count_take_map_callClosure LockEv.acquireMapRead (by intro a; simp) es j,
          count_take_map_callClosure LockEv.releaseMapRead (by intro a; simp) es j]

theorem c8_witness :
    stackWriteHeldAt (effectLockTrace 7) 2 = false ∧
      mapReadHeldAt (setListenLockTrace (some [3])) 1 = true :=
  ⟨c8_lock_discipline_amended.1 7 2 7 (by decide),
   c8_lock_discipline_amended.2 (some [3]) 1 3 (by decide)⟩

/-- Claim C10: the derived `Default` constructor of `Reactive<T>` produces a
cell whose id value is 0, and since `PartialEq`/`Hash` compare the numeric id
value behind the `Arc`, a default-constructed cell compares equal to (and
hashes identically to) the first cell created by `Reactive::new` in the
process, even though the two share no storage — cell ids are not
process-unique across `Default` and `new`. -/
theorem c10_default_id_collides_with_first_new :
    ReactiveHandle.idEq defaultHandle (newHandle initialIdCounter).1 = true ∧
      ReactiveHandle.hashKey defaultHandle =
        ReactiveHandle.hashKey (newHandle initialIdCounter).1 ∧
      defaultHandle.id = (newHandle initialIdCounter).1.id :=
  ⟨rfl, rfl, rfl⟩
